import Mathlib

/-!
# riking/warc: the WARC record writer (writer.go)

A shallow embedding of `writer.go`.  Go strings and byte slices are lists of
bytes; an `io.Writer` is an explicit state (the bytes it has accepted and the
log of the `Write` calls it has received) together with the rule that decides
the result of each call; an `io.Reader` is the script of the results its
`Read` calls return; a function returning `error` returns the new writer state
and an `Option Error` (`none` is Go's `nil`).
-/

namespace warc

/-! ## Bytes, strings, errors -/

/-- One byte. -/
abbrev Byte := Fin 256

/-- A Go `string` or `[]byte`: a finite sequence of bytes. -/
abbrev Bytes := List Byte

/-- The bytes of an ASCII string literal of the source. -/
def ascii (s : String) : Bytes := s.toList.map (fun c => Fin.ofNat c.toNat)

/-- Go `error` values: `io.EOF`, the two errors `io.Copy` can raise itself,
and any other error, identified by a code. -/
inductive Error where
  | EOF
  | ErrShortWrite
  | errInvalidWrite
  | other (code : Nat)
  deriving DecidableEq, Repr

/-! ## io.Writer -/

/-- An `io.Writer`.  `policy log p` is what the destination answers to
`Write(p)` after having received the calls `log`: the number of bytes it
accepts and the error it returns.  `log` records the argument of every `Write`
call so far and `out` the bytes accepted so far. -/
structure Writer where
  policy : List Bytes → Bytes → Nat × Option Error
  log : List Bytes
  out : Bytes

/-- One call `w.Write(p)`: returns the new state, `n` and `err`. -/
def Writer.Write (w : Writer) (p : Bytes) : Writer × Nat × Option Error :=
  let r := w.policy w.log p
  ({ w with log := w.log ++ [p], out := w.out ++ p.take r.1 }, r.1, r.2)

/-- `io.WriteString(w, s)`: a single `Write` of the bytes of `s`. -/
def ioWriteString (w : Writer) (s : Bytes) : Writer × Nat × Option Error :=
  w.Write s

/-- A destination that never fails: every `Write(p)` accepts all of `p` and
returns a nil error. -/
def Writer.NeverFails (w : Writer) : Prop :=
  ∀ log p, w.policy log p = (p.length, none)

/-- A fresh destination that never fails and has received nothing. -/
def Writer.reliable : Writer :=
  { policy := fun _ p => (p.length, none), log := [], out := [] }

/-! ## io.Reader and io.Copy -/

/-- An `io.Reader`, as the script of the results `(data, err)` of its
successive `Read` calls; once the script is used up `Read` returns
`(0, io.EOF)`. -/
abbrev Reader := List (Bytes × Option Error)

/-- The bytes a source delivers up to and including its first read that
returns a non-nil error. -/
def Reader.data : Reader → Bytes
  | [] => []
  | (buf, none) :: rest => buf ++ Reader.data rest
  | (buf, some _) :: _ => buf

/-- The first non-nil error a source returns (`io.EOF` at the end of the
script). -/
def Reader.final : Reader → Error
  | [] => Error.EOF
  | (_, none) :: rest => Reader.final rest
  | (_, some e) :: _ => e

/-- The write half of one iteration of the `io.Copy` loop, for a read that
returned `buf` with `len(buf) > 0`: the error that ends the loop, if any. -/
def copyWrite (w : Writer) (buf : Bytes) : Writer × Option Error :=
  let r := w.Write buf
  let nw := r.2.1
  let ew := r.2.2
  -- if nw < 0 || nr < nw { nw = 0; if ew == nil { ew = errInvalidWrite } }
  let ew := if buf.length < nw then (if ew = none then some Error.errInvalidWrite else ew) else ew
  let nw := if buf.length < nw then 0 else nw
  match ew with
  | some e => (r.1, some e)
  | none => if buf.length ≠ nw then (r.1, some Error.ErrShortWrite) else (r.1, none)

/-- `io.Copy(w, r)`: read until the source returns an error, writing every
non-empty read to `w`; a write error or short write ends the copy, an
`io.EOF` from the source is success, any other read error is returned. -/
def ioCopy (w : Writer) : Reader → Writer × Option Error
  | [] => (w, none)
  | (buf, er) :: rest =>
    match (if 0 < buf.length then copyWrite w buf else (w, none)) with
    | (w1, some e) => (w1, some e)
    | (w1, none) =>
      match er with
      | some e => if e ≠ Error.EOF then (w1, some e) else (w1, none)
      | none => ioCopy w1 rest

/-! ## Go maps, string comparison, sort.Slice -/

/-- A Go `map[string]string`, given by one enumeration of its entries (the
order in which `range` visits them). -/
abbrev GoMap := List (Bytes × Bytes)

/-- The keys of a Go map are unique. -/
def GoMap.WF (m : GoMap) : Prop := (m.map Prod.fst).Nodup

instance (m : GoMap) : Decidable m.WF := by
  unfold GoMap.WF
  infer_instance

/-- Indexing `fields[key]`: the stored value, or the empty string when the
key is absent. -/
def mapIndex : GoMap → Bytes → Bytes
  | [], _ => []
  | (k, v) :: m, key => if key = k then v else mapIndex m key

/-- Go's `<` on strings: byte-wise lexicographic, a proper prefix being
smaller. -/
def strLess : Bytes → Bytes → Bool
  | [], [] => false
  | [], _ :: _ => true
  | _ :: _, [] => false
  | a :: s, b :: t => if a < b then true else if b < a then false else strLess s t

/-- Insert `a` after the elements that are smaller than it. -/
def insertLess {α : Type} (less : α → α → Bool) (a : α) : List α → List α
  | [] => [a]
  | b :: l => if less b a then b :: insertLess less a l else a :: b :: l

/-- `sort.Slice(keys, less)`: sorts by `less`.  The library routine is an
unstable sort; it is modelled by insertion sort, which agrees with every
correct sort when `less` is a strict total order and the elements are
distinct (see `sortSlice_unique`). -/
def sortSlice {α : Type} (less : α → α → Bool) : List α → List α
  | [] => []
  | a :: l => insertLess less a (sortSlice less l)

/-! ## writer.go -/

/-- Modelled from the spec: the package variable `crlf` is not declared in
writer.go; it is the two-byte CR LF sequence. -/
def crlf : Bytes := ascii "\r\n"

/-- `writeField`: skip an empty value, otherwise write `key: value` and CR LF. -/
def writeField (w : Writer) (key value : Bytes) : Writer × Option Error :=
  if value = [] then (w, none)
  else
    let ln := key ++ ascii ": " ++ value ++ ascii "\r\n"
    let r := ioWriteString w ln
    (r.1, r.2.2)

/-- The loop `for _, key := range keys` of `writeFields`. -/
def writeFieldsLoop (w : Writer) (fields : GoMap) : List Bytes → Writer × Option Error
  | [] => (w, none)
  | key :: keys =>
    match writeField w key (mapIndex fields key) with
    | (w1, some err) => (w1, some err)
    | (w1, none) => writeFieldsLoop w1 fields keys

/-- `writeFields`: collect the keys, sort them, write each field. -/
def writeFields (w : Writer) (fields : GoMap) : Writer × Option Error :=
  let keys := fields.map Prod.fst
  let keys := sortSlice strLess keys
  writeFieldsLoop w fields keys

/-- Modelled from the spec: the type `Format` and its `String` method are not
in writer.go; a format is a textual version token, rendered verbatim. -/
structure Format where
  token : Bytes

/-- Modelled from the spec: `Format.String()`, the token rendered verbatim. -/
def Format.String (f : Format) : Bytes := f.token

/-- Modelled from the spec: the type `Record` is not in writer.go; a record
has a format, a header map and a content source. -/
structure Record where
  Format : warc.Format
  Headers : GoMap
  Content : Reader

/-- `writeWarcVersion`: the version token and CR LF. -/
def writeWarcVersion (w : Writer) (r : Record) : Writer × Option Error :=
  let res := ioWriteString w (r.Format.String ++ ascii "\r\n")
  (res.1, res.2.2)

/-- `writeHeader`: version line, fields, blank line. -/
def writeHeader (w : Writer) (r : Record) : Writer × Option Error :=
  match writeWarcVersion w r with
  | (w1, some err) => (w1, some err)
  | (w1, none) =>
    match writeFields w1 r.Headers with
    | (w2, some err) => (w2, some err)
    | (w2, none) =>
      match ioWriteString w2 (ascii "\r\n") with
      | (w3, _, some err) => (w3, some err)
      | (w3, _, none) => (w3, none)

/-- `writeBlock`: copy the content, then write two CR LF. -/
def writeBlock (w : Writer) (r : Reader) : Writer × Option Error :=
  match ioCopy w r with
  | (w1, some err) => (w1, some err)
  | (w1, none) =>
    let res := ioWriteString w1 (ascii "\r\n\r\n")
    (res.1, res.2.2)

/-- Modelled from the spec: the method `Record.Write` is not in writer.go;
it composes the header writer and then the block writer for one record. -/
def Record.Write (r : Record) (w : Writer) : Writer × Option Error :=
  match writeHeader w r with
  | (w1, some err) => (w1, some err)
  | (w1, none) => writeBlock w1 r.Content

/-- `WriteRecords`: write each record in order, return the first error. -/
def WriteRecords (w : Writer) : List Record → Writer × Option Error
  | [] => (w, none)
  | rec :: records =>
    match rec.Write w with
    | (w1, some err) => (w1, some err)
    | (w1, none) => WriteRecords w1 records

/-- Search downwards from index `k - 1` for a position where `sep` occurs in
`s`; `-1` when there is none. -/
def lastIndexFrom (s sep : Bytes) : Nat → Int
  | 0 => -1
  | k + 1 => if (s.drop k).take sep.length = sep then (k : Int) else lastIndexFrom s sep k

/-- `bytes.LastIndex(s, sep)`: the index of the last instance of `sep` in
`s`, or `-1` if `sep` is not present. -/
def LastIndex (s sep : Bytes) : Int :=
  if s.length < sep.length then -1
  else lastIndexFrom s sep (s.length - sep.length + 1)

/-- `replaceBlockBody`: the bytes of `data` from the last CR LF on, followed
by `repl`; `repl` alone when `data` has no CR LF. -/
def replaceBlockBody (data repl : Bytes) : Bytes × Option Error :=
  let start := LastIndex data crlf
  if start = -1 then (repl, none)
  else (data.drop start.toNat ++ repl, none)

/-! ## net/http headers and requests -/

/-- A `net/http` `Header`, a Go `map[string][]string`, given by one
enumeration of its entries (the order in which `range` visits them). -/
abbrev Header := List (Bytes × List Bytes)

/-- The names of a header set are unique. -/
def Header.WF (h : Header) : Prop := (h.map Prod.fst).Nodup

instance (h : Header) : Decidable h.WF := by
  unfold Header.WF
  infer_instance

/-- Indexing `h[key]`: the stored values, or nil when the name is absent. -/
def headerIndex : Header → Bytes → List Bytes
  | [], _ => []
  | (k, vs) :: h, key => if key = k then vs else headerIndex h key

/-- `textproto.validHeaderFieldByte`: the bytes of an HTTP token, namely
digits, letters and the fifteen punctuation marks of RFC 7230. -/
def validHeaderFieldByte (c : Byte) : Bool :=
  (48 ≤ c && c ≤ 57) || (97 ≤ c && c ≤ 122) || (65 ≤ c && c ≤ 90) ||
    c ∈ ([33, 35, 36, 37, 38, 39, 42, 43, 45, 46, 94, 95, 96, 124, 126] : List Byte)

/-- The canonicalizing loop of `textproto.canonicalMIMEHeaderKey`: a letter is
made upper case at the start and after a hyphen, lower case elsewhere. -/
def canonLoop : Bool → Bytes → Bytes
  | _, [] => []
  | upper, c :: rest =>
    let c1 : Byte :=
      if upper && (97 ≤ c && c ≤ 122) then c - 32
      else if !upper && (65 ≤ c && c ≤ 90) then c + 32
      else c
    c1 :: canonLoop (c1 == 45) rest

/-- `textproto.CanonicalMIMEHeaderKey`: a key with a byte that is not a token
byte is returned as it is, any other key is canonicalized. -/
def CanonicalMIMEHeaderKey (s : Bytes) : Bytes :=
  if s.all validHeaderFieldByte then canonLoop true s else s

/-- `Header.Get(key)`: the first value stored under the canonical form of
`key`, or the empty string when there is none. -/
def Header.Get (h : Header) (key : Bytes) : Bytes :=
  match headerIndex h (CanonicalMIMEHeaderKey key) with
  | [] => []
  | v :: _ => v

/-- The fields of `http.Request` that writer.go uses. -/
structure Request where
  Method : Bytes
  Proto : Bytes
  Header : warc.Header

/-- The loop `for k := range headers` of `WriteHTTPHeaders`, over the names
in the order `range` yields them. -/
def WriteHTTPHeadersLoop (w : Writer) (headers : Header) : List Bytes → Writer × Option Error
  | [] => (w, none)
  | k :: ks =>
    match ioWriteString w (k ++ ascii ": " ++ headers.Get k ++ ascii "\n") with
    | (w1, _, some err) => (w1, some err)
    | (w1, _, none) => WriteHTTPHeadersLoop w1 headers ks

/-- `WriteHTTPHeaders`: one line `name: value` and a line feed per name,
stopping at the first write error. -/
def WriteHTTPHeaders (w : Writer) (headers : Header) : Writer × Option Error :=
  WriteHTTPHeadersLoop w headers (headers.map Prod.fst)

/-- `WriteRequestMethodAndHeaders`: default the method to `GET` (in the
caller's request, which is returned), write the request line, write the
headers, and return the error of the request-line write. -/
def WriteRequestMethodAndHeaders (w : Writer) (req : Request) :
    Writer × Request × Option Error :=
  let req := if req.Method = [] then { req with Method := ascii "GET" } else req
  let r := ioWriteString w (req.Method ++ ascii " / " ++ req.Proto ++ ascii "\n")
  let err := r.2.2
  -- the error returned by WriteHTTPHeaders is dropped
  let r2 := WriteHTTPHeaders r.1 req.Header
  (r2.1, req, err)

/-- `NewUUID`, given the text `u` that `uuid.New()` generated: the text
wrapped as `<urn:uuid:` ... `>`. -/
def NewUUID (u : Bytes) : Bytes := ascii "<urn:uuid:" ++ u ++ ascii ">"

/-! ## Vocabulary for the statements -/

/-- The state of a destination after it has accepted all of `p` in one write. -/
def Writer.push (w : Writer) (p : Bytes) : Writer :=
  { w with log := w.log ++ [p], out := w.out ++ p }

/-- The state after accepting each of `ps` in turn, one write each. -/
def Writer.pushAll (w : Writer) : List Bytes → Writer
  | [] => w
  | p :: ps => Writer.pushAll (w.push p) ps

/-- One field line: `key: value` and CR LF. -/
def fieldLine (k v : Bytes) : Bytes := k ++ ascii ": " ++ v ++ ascii "\r\n"

/-- The lines `writeFields` issues for the keys `keys`, in that order: one
per key whose value is not empty. -/
def fieldLines (fields : GoMap) (keys : List Bytes) : List Bytes :=
  (keys.filter (fun k => mapIndex fields k ≠ [])).map (fun k => fieldLine k (mapIndex fields k))

/-- The non-empty reads of a source up to and including its first read that
returns a non-nil error: what `io.Copy` passes to the destination. -/
def Reader.chunks : Reader → List Bytes
  | [] => []
  | (buf, none) :: rest => if 0 < buf.length then buf :: Reader.chunks rest else Reader.chunks rest
  | (buf, some _) :: _ => if 0 < buf.length then [buf] else []

/-- The record of the example: format `WARC/1.0`, no headers, content `hello`. -/
def helloRecord : Record :=
  { Format := { token := ascii "WARC/1.0" }, Headers := [], Content := [(ascii "hello", none)] }

/-- The order `a ≤ b` on keys, as `sort.Slice` sees it: `b` is not less than `a`. -/
def keyLe (a b : Bytes) : Prop := strLess b a = false

/-- The state of the destination after each record of `rs` has been written
to it in turn, whatever the writes returned. -/
def writeSeq (w : Writer) : List Record → Writer
  | [] => w
  | r :: rs => writeSeq (r.Write w).1 rs

/-- Every record of `rs`, written in turn to the destination, returns nil. -/
def allSucceed (w : Writer) : List Record → Bool
  | [] => true
  | r :: rs => (r.Write w).2 = none && allSucceed (r.Write w).1 rs

/-- The writes one record issues on a destination that never fails. -/
def recordWrites (r : Record) : List Bytes :=
  [r.Format.String ++ ascii "\r\n"]
    ++ fieldLines r.Headers (sortSlice strLess (r.Headers.map Prod.fst))
    ++ [ascii "\r\n"] ++ r.Content.chunks
    ++ (if r.Content.final = Error.EOF then [ascii "\r\n\r\n"] else [])

/-- A content source that delivers `he`, then `l` together with a read error. -/
def failingReader : Reader := [(ascii "he", none), (ascii "l", some (Error.other 7))]

/-- A record whose content source fails after the bytes `he`. -/
def brokenRecord : Record :=
  { Format := { token := ascii "WARC/1.0" }, Headers := [],
    Content := [(ascii "he", some (Error.other 1))] }

/-- Issue the writes `ps` in turn, stopping after the first one that returns
an error. -/
def writeAll (w : Writer) : List Bytes → Writer × Option Error
  | [] => (w, none)
  | p :: ps =>
    match w.Write p with
    | (w1, _, some e) => (w1, some e)
    | (w1, _, none) => writeAll w1 ps

/-- The state of the destination after each of `ps` has been passed to
`Write` in turn, whatever the calls returned. -/
def Writer.feed (w : Writer) : List Bytes → Writer
  | [] => w
  | p :: ps => Writer.feed (w.Write p).1 ps

/-- Each of `ps`, passed to `Write` in turn, returns a nil error. -/
def allAccepted (w : Writer) : List Bytes → Bool
  | [] => true
  | p :: ps => (w.Write p).2.2 = none && allAccepted (w.Write p).1 ps

/-- The writes `writeHeader` sets out to issue: the version line, the field
lines, the blank line. -/
def headerWrites (r : Record) : List Bytes :=
  (r.Format.String ++ ascii "\r\n")
    :: (fieldLines r.Headers (sortSlice strLess (r.Headers.map Prod.fst)) ++ [ascii "\r\n"])

/-- The lines `WriteHTTPHeaders` sets out to write, in enumeration order. -/
def httpLines (h : Header) : List Bytes :=
  h.map (fun e => e.1 ++ ascii ": " ++ h.Get e.1 ++ ascii "\n")

/-- A destination that accepts its first `n` writes in full and rejects every
later one with an error, accepting nothing. -/
def failAfter (n : Nat) : Writer :=
  { policy := fun log p => if log.length < n then (p.length, none) else (0, some (Error.other 1)),
    log := [], out := [] }

/-- A request with method `GET`, protocol `HTTP/1.1` and one header. -/
def getRequest : Request :=
  { Method := ascii "GET", Proto := ascii "HTTP/1.1", Header := [(ascii "Accept", [ascii "a"])] }

/-! ## Go's string order is a strict total order -/

theorem strLess_iff_lex (a b : Bytes) :
    strLess a b = true ↔ List.Lex (fun x y : Byte => x < y) a b := by
  induction a generalizing b with
  | nil =>
    cases b with
    | nil => simp [strLess]
    | cons y t => simp [strLess, List.Lex.nil]
  | cons x s ih =>
    cases b with
    | nil => simp [strLess]
    | cons y t =>
      unfold strLess
      by_cases h1 : x < y
      · simp [h1, List.Lex.rel h1]
      · by_cases h2 : y < x
        · simp only [h1, h2, if_false, if_true]
          constructor
          · intro h; cases h
          · intro h
            cases h with
            | cons h => exact absurd h2 (lt_irrefl _)
            | rel h => exact absurd h h1
        · have hxy : x = y := le_antisymm (not_lt.mp h2) (not_lt.mp h1)
          subst hxy
          simp only [h1, if_false]
          rw [ih t]
          constructor
          · intro h; exact List.Lex.cons h
          · intro h
            cases h with
            | cons h => exact h
            | rel h => exact absurd h h1

theorem strLess_irrefl (a : Bytes) : strLess a a = false := by
  induction a with
  | nil => rfl
  | cons x s ih => simp [strLess, ih]

theorem strLess_trans {a b c : Bytes} (h1 : strLess a b = true) (h2 : strLess b c = true) :
    strLess a c = true := by
  rw [strLess_iff_lex] at *
  exact IsTrans.trans _ _ _ h1 h2

theorem strLess_asymm {a b : Bytes} (h : strLess a b = true) : strLess b a = false := by
  cases hba : strLess b a with
  | false => rfl
  | true =>
    have := strLess_trans h hba
    rw [strLess_irrefl] at this
    exact absurd this (by decide)

theorem strLess_total {a b : Bytes} (h : a ≠ b) : strLess a b = true ∨ strLess b a = true := by
  rw [strLess_iff_lex, strLess_iff_lex]
  rcases trichotomous_of (List.Lex (fun x y : Byte => x < y)) a b with h1 | h1 | h1
  · exact Or.inl h1
  · exact absurd h1 h
  · exact Or.inr h1

theorem keyLe_trans {a b c : Bytes} (h1 : keyLe a b) (h2 : keyLe b c) : keyLe a c := by
  unfold keyLe at *
  cases hca : strLess c a with
  | false => rfl
  | true =>
    exfalso
    by_cases hab : a = b
    · subst hab; rw [hca] at h2; exact absurd h2 (by decide)
    · rcases strLess_total hab with h | h
      · have := strLess_trans hca h
        rw [h2] at this; exact absurd this (by decide)
      · rw [h1] at h; exact absurd h (by decide)

theorem keyLe_antisymm {a b : Bytes} (h1 : keyLe a b) (h2 : keyLe b a) : a = b := by
  unfold keyLe at *
  by_contra hab
  rcases strLess_total hab with h | h
  · rw [h2] at h; exact absurd h (by decide)
  · rw [h1] at h; exact absurd h (by decide)

/-! ## sort.Slice returns the sorted permutation -/

theorem insertLess_perm {α : Type} (less : α → α → Bool) (a : α) (l : List α) :
    (insertLess less a l).Perm (a :: l) := by
  induction l with
  | nil => exact List.Perm.refl _
  | cons b l ih =>
    unfold insertLess
    split
    · exact ((List.Perm.cons b ih).trans (List.Perm.swap a b l))
    · exact List.Perm.refl _

theorem sortSlice_perm {α : Type} (less : α → α → Bool) (l : List α) :
    (sortSlice less l).Perm l := by
  induction l with
  | nil => exact List.Perm.refl _
  | cons a l ih =>
    unfold sortSlice
    exact (insertLess_perm less a _).trans (List.Perm.cons a ih)

theorem insertLess_sorted (a : Bytes) (l : List Bytes) (h : l.Pairwise keyLe) :
    (insertLess strLess a l).Pairwise keyLe := by
  induction l with
  | nil => simp [insertLess]
  | cons b l ih =>
    rw [List.pairwise_cons] at h
    unfold insertLess
    by_cases hba : strLess b a = true
    · simp only [hba, if_true]
      rw [List.pairwise_cons]
      refine ⟨?_, ih h.2⟩
      intro x hx
      rcases List.mem_cons.mp ((List.Perm.mem_iff (insertLess_perm strLess a l)).mp hx) with hx | hx
      · subst hx; exact strLess_asymm hba
      · exact h.1 x hx
    · have hba1 : strLess b a = false := by simpa using hba
      simp only [hba1, Bool.false_eq_true, if_false]
      rw [List.pairwise_cons]
      refine ⟨?_, List.pairwise_cons.mpr h⟩
      intro x hx
      rcases List.mem_cons.mp hx with hx | hx
      · subst hx; exact hba1
      · exact keyLe_trans hba1 (h.1 x hx)

theorem sortSlice_sorted (l : List Bytes) : (sortSlice strLess l).Pairwise keyLe := by
  induction l with
  | nil => simp [sortSlice]
  | cons a l ih => exact insertLess_sorted a _ ih

/-- Any sorted arrangement of the keys is the one `sortSlice` returns: the
choice of sorting algorithm does not matter. -/
theorem sortSlice_unique (l l2 : List Bytes) (hp : l2.Perm l) (hs : l2.Pairwise keyLe) :
    sortSlice strLess l = l2 := by
  haveI : IsAntisymm Bytes keyLe := ⟨fun _ _ h1 h2 => keyLe_antisymm h1 h2⟩
  exact List.eq_of_perm_of_sorted ((sortSlice_perm strLess l).trans hp.symm)
    (sortSlice_sorted l) hs

theorem sortSlice_strict (l : List Bytes) (hn : l.Nodup) :
    (sortSlice strLess l).Pairwise (fun a b => strLess a b = true) := by
  have hs := sortSlice_sorted l
  have hn2 : (sortSlice strLess l).Nodup := (sortSlice_perm strLess l).nodup_iff.mpr hn
  have := List.Pairwise.and hs hn2
  refine this.imp ?_
  intro a b hab
  rcases strLess_total hab.2 with h | h
  · exact h
  · have h1 : strLess b a = false := hab.1
    rw [h1] at h; exact absurd h (by decide)

/-! ## A destination that never fails -/

theorem Write_neverFails (w : Writer) (p : Bytes) (hw : w.NeverFails) :
    w.Write p = (w.push p, p.length, none) := by
  unfold Writer.Write Writer.push
  simp [hw w.log p]

theorem push_neverFails (w : Writer) (p : Bytes) (hw : w.NeverFails) : (w.push p).NeverFails :=
  fun log q => hw log q

theorem pushAll_neverFails (w : Writer) (ps : List Bytes) (hw : w.NeverFails) :
    (w.pushAll ps).NeverFails := by
  induction ps generalizing w with
  | nil => exact hw
  | cons p ps ih => exact ih (w.push p) (push_neverFails w p hw)

theorem pushAll_out (w : Writer) (ps : List Bytes) : (w.pushAll ps).out = w.out ++ ps.flatten := by
  induction ps generalizing w with
  | nil => simp [Writer.pushAll]
  | cons p ps ih => simp [Writer.pushAll, ih, Writer.push]

theorem pushAll_log (w : Writer) (ps : List Bytes) : (w.pushAll ps).log = w.log ++ ps := by
  induction ps generalizing w with
  | nil => simp [Writer.pushAll]
  | cons p ps ih => simp [Writer.pushAll, ih, Writer.push]

theorem pushAll_append (w : Writer) (ps qs : List Bytes) :
    w.pushAll (ps ++ qs) = (w.pushAll ps).pushAll qs := by
  induction ps generalizing w with
  | nil => rfl
  | cons p ps ih => simp [Writer.pushAll, ih]

theorem writeField_neverFails (w : Writer) (k v : Bytes) (hw : w.NeverFails) :
    writeField w k v = (if v = [] then w else w.push (fieldLine k v), none) := by
  unfold writeField
  by_cases hv : v = []
  · simp [hv]
  · simp [hv, ioWriteString, Write_neverFails w _ hw, fieldLine]

theorem writeFieldsLoop_neverFails (w : Writer) (fields : GoMap) (keys : List Bytes)
    (hw : w.NeverFails) :
    writeFieldsLoop w fields keys = (w.pushAll (fieldLines fields keys), none) := by
  induction keys generalizing w with
  | nil => rfl
  | cons k keys ih =>
    unfold writeFieldsLoop
    rw [writeField_neverFails w k _ hw]
    by_cases hv : mapIndex fields k = []
    · simp only [hv, if_true]
      rw [ih w hw]
      simp [fieldLines, hv]
    · simp only [hv, if_false]
      rw [ih _ (push_neverFails w _ hw)]
      simp [fieldLines, hv, Writer.pushAll]

theorem writeFields_neverFails (w : Writer) (fields : GoMap) (hw : w.NeverFails) :
    writeFields w fields
      = (w.pushAll (fieldLines fields (sortSlice strLess (fields.map Prod.fst))), none) := by
  unfold writeFields
  exact writeFieldsLoop_neverFails w fields _ hw

theorem chunks_join (r : Reader) : r.chunks.flatten = r.data := by
  induction r with
  | nil => rfl
  | cons ev rest ih =>
    obtain ⟨buf, er⟩ := ev
    cases er with
    | none =>
      unfold Reader.chunks Reader.data
      by_cases hb : 0 < buf.length
      · simp [hb, ih]
      · have : buf = [] := by
          cases buf with
          | nil => rfl
          | cons x t => simp at hb
        simp [this, ih]
    | some e =>
      unfold Reader.chunks Reader.data
      by_cases hb : 0 < buf.length
      · simp [hb]
      · have : buf = [] := by
          cases buf with
          | nil => rfl
          | cons x t => simp at hb
        simp [this]

theorem copyWrite_neverFails (w : Writer) (buf : Bytes) (hw : w.NeverFails) :
    copyWrite w buf = (w.push buf, none) := by
  unfold copyWrite
  simp [Write_neverFails w buf hw]

theorem ioCopy_neverFails (w : Writer) (r : Reader) (hw : w.NeverFails) :
    ioCopy w r
      = (w.pushAll r.chunks, if r.final = Error.EOF then none else some r.final) := by
  induction r generalizing w with
  | nil => simp [ioCopy, Reader.chunks, Reader.final, Writer.pushAll]
  | cons ev rest ih =>
    obtain ⟨buf, er⟩ := ev
    unfold ioCopy
    by_cases hb : 0 < buf.length
    · simp only [hb, if_true, copyWrite_neverFails w buf hw]
      cases er with
      | none =>
        simp only [Reader.chunks, Reader.final, hb, if_true, Writer.pushAll]
        exact ih _ (push_neverFails w buf hw)
      | some e =>
        by_cases he : e = Error.EOF
        · simp [Reader.chunks, Reader.final, hb, Writer.pushAll, he]
        · simp [Reader.chunks, Reader.final, hb, Writer.pushAll, he]
    · simp only [hb, if_false]
      cases er with
      | none =>
        simp only [Reader.chunks, Reader.final, hb, if_false]
        exact ih w hw
      | some e =>
        by_cases he : e = Error.EOF
        · simp [Reader.chunks, Reader.final, hb, Writer.pushAll, he]
        · simp [Reader.chunks, Reader.final, hb, Writer.pushAll, he]

theorem writeHeader_neverFails (w : Writer) (r : Record) (hw : w.NeverFails) :
    writeHeader w r
      = ((((w.push (r.Format.String ++ ascii "\r\n")).pushAll
            (fieldLines r.Headers (sortSlice strLess (r.Headers.map Prod.fst)))).push
              (ascii "\r\n")), none) := by
  unfold writeHeader writeWarcVersion ioWriteString
  rw [Write_neverFails w _ hw]
  simp only []
  rw [writeFields_neverFails _ _ (push_neverFails w _ hw)]
  simp only []
  rw [Write_neverFails _ _ (pushAll_neverFails _ _ (push_neverFails w _ hw))]

theorem writeHeader_keeps_neverFails (w : Writer) (r : Record) (hw : w.NeverFails) :
    (writeHeader w r).1.NeverFails := by
  rw [writeHeader_neverFails w r hw]
  exact push_neverFails _ _ (pushAll_neverFails _ _ (push_neverFails w _ hw))

theorem writeBlock_neverFails (w : Writer) (r : Reader) (hw : w.NeverFails)
    (hr : r.final = Error.EOF) :
    writeBlock w r = ((w.pushAll r.chunks).push (ascii "\r\n\r\n"), none) := by
  unfold writeBlock ioWriteString
  rw [ioCopy_neverFails w r hw]
  simp only [hr, if_true]
  rw [Write_neverFails _ _ (pushAll_neverFails w _ hw)]

theorem writeFields_reliable_out (fields : GoMap) :
    (writeFields Writer.reliable fields).1.out
      = (fieldLines fields (sortSlice strLess (fields.map Prod.fst))).flatten := by
  rw [writeFields_neverFails Writer.reliable fields (fun _ _ => rfl), pushAll_out]
  rfl

/-! ## Indexing a map -/

theorem mapIndex_of_not_mem (m : GoMap) (k : Bytes) (h : k ∉ m.map Prod.fst) :
    mapIndex m k = [] := by
  induction m with
  | nil => rfl
  | cons e m ih =>
    obtain ⟨k1, v1⟩ := e
    simp only [List.map_cons, List.mem_cons, not_or] at h
    simp [mapIndex, h.1, ih h.2]

theorem mapIndex_of_mem (m : GoMap) (hwf : m.WF) (k v : Bytes) (h : (k, v) ∈ m) :
    mapIndex m k = v := by
  induction m with
  | nil => simp at h
  | cons e m ih =>
    obtain ⟨k1, v1⟩ := e
    unfold GoMap.WF at hwf
    simp only [List.map_cons, List.nodup_cons] at hwf
    rcases List.mem_cons.mp h with h1 | h1
    · cases h1
      simp [mapIndex]
    · have hne : k ≠ k1 := by
        intro hk
        subst hk
        exact hwf.1 (List.mem_map.mpr ⟨(k, v), h1, rfl⟩)
      simp only [mapIndex, hne, if_false]
      exact ih hwf.2 h1

theorem mapIndex_perm (m1 m2 : GoMap) (hwf : m1.WF) (hp : m1.Perm m2) (k : Bytes) :
    mapIndex m1 k = mapIndex m2 k := by
  have hwf2 : m2.WF := (hp.map Prod.fst).nodup_iff.mp hwf
  by_cases hk : k ∈ m1.map Prod.fst
  · obtain ⟨e, he, hek⟩ := List.mem_map.mp hk
    obtain ⟨k1, v1⟩ := e
    simp only at hek
    subst hek
    rw [mapIndex_of_mem m1 hwf _ _ he, mapIndex_of_mem m2 hwf2 _ _ (hp.mem_iff.mp he)]
  · have hk2 : k ∉ m2.map Prod.fst := fun h => hk ((hp.map Prod.fst).mem_iff.mpr h)
    rw [mapIndex_of_not_mem m1 k hk, mapIndex_of_not_mem m2 k hk2]

theorem writeFieldsLoop_congr (w : Writer) (m1 m2 : GoMap) (keys : List Bytes)
    (h : ∀ k ∈ keys, mapIndex m1 k = mapIndex m2 k) :
    writeFieldsLoop w m1 keys = writeFieldsLoop w m2 keys := by
  induction keys generalizing w with
  | nil => rfl
  | cons k keys ih =>
    unfold writeFieldsLoop
    rw [h k (List.mem_cons_self _ _)]
    rcases hres : writeField w k (mapIndex m2 k) with ⟨w1, e⟩
    cases e with
    | some err => rfl
    | none => exact ih w1 (fun k2 hk2 => h k2 (List.mem_cons_of_mem _ hk2))

/-- The result of `writeFields` does not depend on the enumeration of the map. -/
theorem writeFields_perm (w : Writer) (m1 m2 : GoMap) (hwf : m1.WF) (hp : m1.Perm m2) :
    writeFields w m1 = writeFields w m2 := by
  unfold writeFields
  have hkeys : sortSlice strLess (m1.map Prod.fst) = sortSlice strLess (m2.map Prod.fst) :=
    sortSlice_unique _ _ ((sortSlice_perm strLess _).trans (hp.map Prod.fst).symm)
      (sortSlice_sorted _)
  simp only [hkeys]
  exact writeFieldsLoop_congr w m1 m2 _ (fun k _ => mapIndex_perm m1 m2 hwf hp k)

/-- The entries with a non-empty value, read off a list of keys. -/
theorem entries_of_keys (fields : GoMap) (hwf : fields.WF) (l : GoMap)
    (hl : ∀ e ∈ l, e ∈ fields) :
    ((l.map Prod.fst).filter (fun k => mapIndex fields k ≠ [])).map
        (fun k => (k, mapIndex fields k))
      = l.filter (fun e => e.2 ≠ []) := by
  induction l with
  | nil => rfl
  | cons e l ih =>
    obtain ⟨k, v⟩ := e
    have hkv : mapIndex fields k = v := mapIndex_of_mem fields hwf k v (hl _ (List.mem_cons_self _ _))
    have ih2 := ih (fun e he => hl e (List.mem_cons_of_mem _ he))
    by_cases hv : v = []
    · simpa [List.filter_cons, hkv, hv] using ih2
    · simpa [List.filter_cons, hkv, hv] using ih2

/-! ## C1: the bytes of one record -/

/-- C1: on a destination that never fails, and for a content source that
ends with `io.EOF`, `writeHeader` followed by `writeBlock` on the content both
return nil and append exactly the format token, CR LF, the field lines of the
headers, CR LF, the content bytes, CR LF, CR LF; and for format `WARC/1.0`,
empty headers and content `hello` the output is `WARC/1.0\r\n\r\nhello\r\n\r\n`. -/
theorem writeHeader_writeBlock_bytes (w : Writer) (r : Record)
    (hw : w.NeverFails) (hr : r.Content.final = Error.EOF) :
    ((writeHeader w r).2 = none ∧
     (writeBlock (writeHeader w r).1 r.Content).2 = none ∧
     (writeBlock (writeHeader w r).1 r.Content).1.out
        = w.out ++ r.Format.String ++ crlf ++ (writeFields Writer.reliable r.Headers).1.out
            ++ crlf ++ r.Content.data ++ crlf ++ crlf) ∧
    (writeBlock (writeHeader Writer.reliable helloRecord).1 helloRecord.Content).1.out
        = ascii "WARC/1.0\r\n\r\nhello\r\n\r\n" := by
  refine ⟨⟨?_, ?_, ?_⟩, by decide⟩
  · rw [writeHeader_neverFails w r hw]
  · rw [writeBlock_neverFails _ _ (writeHeader_keeps_neverFails w r hw) hr]
  · rw [writeBlock_neverFails _ _ (writeHeader_keeps_neverFails w r hw) hr,
      writeHeader_neverFails w r hw, writeFields_reliable_out]
    simp only [Writer.push, pushAll_out, chunks_join]
    have h4 : ascii "\r\n\r\n" = crlf ++ crlf := by decide
    have h2 : ascii "\r\n" = crlf := rfl
    rw [h4, h2]
    simp [List.append_assoc]

theorem writeHeader_writeBlock_bytes_witness :
    Writer.reliable.NeverFails ∧ helloRecord.Content.final = Error.EOF ∧
    (writeBlock (writeHeader Writer.reliable helloRecord).1 helloRecord.Content).1.out
      = Writer.reliable.out ++ helloRecord.Format.String ++ crlf
          ++ (writeFields Writer.reliable helloRecord.Headers).1.out
          ++ crlf ++ helloRecord.Content.data ++ crlf ++ crlf :=
  ⟨fun _ _ => rfl, rfl,
    (writeHeader_writeBlock_bytes Writer.reliable helloRecord (fun _ _ => rfl) rfl).1.2.2⟩

/-! ## C2: the field section -/

/-- C2: on a destination that never fails, `writeFields` returns nil and
appends exactly the lines `key: value` CR LF of the entries whose value is not
empty, taken in strictly ascending byte-wise order of key; for the keys `B`,
`A`, `C` with non-empty values, enumerated in any order, the lines are those
of `A`, `B`, `C` in that order. -/
theorem writeFields_sorted_lines (w : Writer) (fields : GoMap)
    (hw : w.NeverFails) (hwf : fields.WF) :
    (∃ es : List (Bytes × Bytes),
      es.Perm (fields.filter (fun e => e.2 ≠ [])) ∧
      es.Pairwise (fun a b => strLess a.1 b.1 = true) ∧
      (writeFields w fields).2 = none ∧
      (writeFields w fields).1.out
        = w.out ++ (es.map (fun e => e.1 ++ ascii ": " ++ e.2 ++ ascii "\r\n")).flatten) ∧
    (∀ (m : GoMap) (va vb vc : Bytes), va ≠ [] → vb ≠ [] → vc ≠ [] →
      m.Perm [(ascii "B", vb), (ascii "A", va), (ascii "C", vc)] →
      (writeFields w m).1.out
        = w.out ++ (ascii "A" ++ ascii ": " ++ va ++ ascii "\r\n")
            ++ (ascii "B" ++ ascii ": " ++ vb ++ ascii "\r\n")
            ++ (ascii "C" ++ ascii ": " ++ vc ++ ascii "\r\n")) := by
  constructor
  · refine ⟨((sortSlice strLess (fields.map Prod.fst)).filter
        (fun k => mapIndex fields k ≠ [])).map (fun k => (k, mapIndex fields k)), ?_, ?_, ?_, ?_⟩
    · have h1 := (((sortSlice_perm strLess (fields.map Prod.fst)).filter
        (fun k => mapIndex fields k ≠ [])).map (fun k => (k, mapIndex fields k)))
      rw [entries_of_keys fields hwf fields (fun e he => he)] at h1
      exact h1
    · rw [List.pairwise_map]
      exact (sortSlice_strict _ hwf).sublist (List.filter_sublist _)
    · rw [writeFields_neverFails w fields hw]
    · rw [writeFields_neverFails w fields hw, pushAll_out]
      simp only [fieldLines, List.map_map]
      rfl
  · intro m va vb vc ha hb hc hp
    have hwf3 : GoMap.WF [(ascii "B", vb), (ascii "A", va), (ascii "C", vc)] := by
      unfold GoMap.WF
      simp only [List.map_cons, List.map_nil]
      decide
    have hwfm : m.WF := (hp.map Prod.fst).nodup_iff.mpr hwf3
    rw [writeFields_perm w m _ hwfm hp, writeFields_neverFails w _ hw, pushAll_out]
    have hs : sortSlice strLess
        (List.map Prod.fst [(ascii "B", vb), (ascii "A", va), (ascii "C", vc)])
          = [ascii "A", ascii "B", ascii "C"] := by
      simp only [List.map_cons, List.map_nil]
      decide
    rw [hs]
    have hA : mapIndex [(ascii "B", vb), (ascii "A", va), (ascii "C", vc)] (ascii "A") = va := by
      simp [mapIndex, show ascii "A" ≠ ascii "B" by decide]
    have hB : mapIndex [(ascii "B", vb), (ascii "A", va), (ascii "C", vc)] (ascii "B") = vb := by
      simp [mapIndex]
    have hC : mapIndex [(ascii "B", vb), (ascii "A", va), (ascii "C", vc)] (ascii "C") = vc := by
      simp [mapIndex, show ascii "C" ≠ ascii "B" by decide, show ascii "C" ≠ ascii "A" by decide]
    simp [fieldLines, List.filter_cons, hA, hB, hC, ha, hb, hc, fieldLine]

theorem writeFields_sorted_lines_witness :
    Writer.reliable.NeverFails ∧
    GoMap.WF [(ascii "B", ascii "2"), (ascii "A", ascii "1"), (ascii "C", ascii "3")] ∧
    (writeFields Writer.reliable
        [(ascii "B", ascii "2"), (ascii "A", ascii "1"), (ascii "C", ascii "3")]).1.out
      = Writer.reliable.out ++ (ascii "A" ++ ascii ": " ++ ascii "1" ++ ascii "\r\n")
          ++ (ascii "B" ++ ascii ": " ++ ascii "2" ++ ascii "\r\n")
          ++ (ascii "C" ++ ascii ": " ++ ascii "3" ++ ascii "\r\n") :=
  ⟨fun _ _ => rfl, by decide,
    (writeFields_sorted_lines Writer.reliable
      [(ascii "B", ascii "2"), (ascii "A", ascii "1"), (ascii "C", ascii "3")]
      (fun _ _ => rfl) (by decide)).2 _ (ascii "1") (ascii "2") (ascii "3")
      (by decide) (by decide) (by decide) (List.Perm.refl _)⟩

/-! ## C3: independence of the enumeration order -/

/-- C3: for any destination and any two enumerations of the same field map
(lists with unique keys that are permutations of one another; the second has
unique keys because the first has), `writeFields` gives the same result: the same bytes written, the same writes issued and the
same error. -/
theorem writeFields_enumeration_independent (w : Writer) (m1 m2 : GoMap)
    (hwf1 : m1.WF) (hp : m1.Perm m2) :
    writeFields w m1 = writeFields w m2 ∧
    (writeFields w m1).1.out = (writeFields w m2).1.out := by
  have h := writeFields_perm w m1 m2 hwf1 hp
  exact ⟨h, by rw [h]⟩

theorem writeFields_enumeration_independent_witness :
    GoMap.WF [(ascii "B", ascii "2"), (ascii "A", ascii "1"), (ascii "C", ascii "3")] ∧
    List.Perm [(ascii "B", ascii "2"), (ascii "A", ascii "1"), (ascii "C", ascii "3")]
      [(ascii "A", ascii "1"), (ascii "B", ascii "2"), (ascii "C", ascii "3")] ∧
    (writeFields Writer.reliable
        [(ascii "B", ascii "2"), (ascii "A", ascii "1"), (ascii "C", ascii "3")]).1.out
      = (writeFields Writer.reliable
        [(ascii "A", ascii "1"), (ascii "B", ascii "2"), (ascii "C", ascii "3")]).1.out :=
  ⟨by decide, List.Perm.swap _ _ _,
    (writeFields_enumeration_independent Writer.reliable _ _ (by decide)
      (List.Perm.swap _ _ _)).2⟩

/-! ## C4: fields with an empty value -/

theorem mapIndex_filter_ne (m : GoMap) (k k1 : Bytes) (h : k1 ≠ k) :
    mapIndex (m.filter (fun e => e.1 ≠ k)) k1 = mapIndex m k1 := by
  induction m with
  | nil => rfl
  | cons e m ih =>
    obtain ⟨k2, v2⟩ := e
    by_cases h2 : k2 = k
    · subst h2
      simpa [List.filter_cons, mapIndex, h] using ih
    · simp only [List.filter_cons, h2, ne_eq, not_false_eq_true, decide_True, if_true, mapIndex]
      rw [ih]

theorem writeFieldsLoop_skip (w : Writer) (m : GoMap) (k : Bytes) (keys : List Bytes)
    (hk : mapIndex m k = []) :
    writeFieldsLoop w m keys = writeFieldsLoop w m (keys.filter (fun x => x ≠ k)) := by
  induction keys generalizing w with
  | nil => rfl
  | cons k1 keys ih =>
    by_cases h1 : k1 = k
    · subst h1
      have hf : (k1 :: keys).filter (fun x => x ≠ k1) = keys.filter (fun x => x ≠ k1) := by
        simp [List.filter_cons]
      rw [hf, ← ih w]
      simp [writeFieldsLoop, writeField, hk]
    · have hf : (k1 :: keys).filter (fun x => x ≠ k)
          = k1 :: keys.filter (fun x => x ≠ k) := by
        simp [List.filter_cons, h1]
      rw [hf]
      unfold writeFieldsLoop
      rcases hres : writeField w k1 (mapIndex m k1) with ⟨w1, e⟩
      cases e with
      | some err => rfl
      | none => exact ih w1

theorem keys_filter_ne (m : GoMap) (k : Bytes) :
    (m.filter (fun e => e.1 ≠ k)).map Prod.fst = (m.map Prod.fst).filter (fun x => x ≠ k) := by
  induction m with
  | nil => rfl
  | cons e m ih =>
    obtain ⟨k2, v2⟩ := e
    by_cases h2 : k2 = k
    · subst h2
      simpa [List.filter_cons] using ih
    · simp only [List.filter_cons, h2, ne_eq, not_false_eq_true, decide_True, if_true,
        List.map_cons]
      rw [ih]

theorem writeFields_remove_empty (w : Writer) (m : GoMap) (k : Bytes)
    (hk : mapIndex m k = []) :
    writeFields w m = writeFields w (m.filter (fun e => e.1 ≠ k)) := by
  unfold writeFields
  simp only [keys_filter_ne]
  have hkeys : sortSlice strLess ((m.map Prod.fst).filter (fun x => x ≠ k))
      = (sortSlice strLess (m.map Prod.fst)).filter (fun x => x ≠ k) :=
    sortSlice_unique _ _ ((sortSlice_perm strLess _).filter _)
      ((sortSlice_sorted _).sublist (List.filter_sublist _))
  rw [hkeys, writeFieldsLoop_skip w m k _ hk]
  apply writeFieldsLoop_congr
  intro k1 hk1
  have hne : k1 ≠ k := by simpa using (List.mem_filter.mp hk1).2
  exact (mapIndex_filter_ne m k k1 hne).symm

/-- Every write `writeFields` issues is the line of a key with a non-empty value. -/
theorem writeFieldsLoop_log (w : Writer) (m : GoMap) (keys : List Bytes) :
    ∃ ps : List Bytes, (writeFieldsLoop w m keys).1.log = w.log ++ ps ∧
      ∀ p ∈ ps, ∃ k1 ∈ keys, mapIndex m k1 ≠ [] ∧ p = fieldLine k1 (mapIndex m k1) := by
  induction keys generalizing w with
  | nil => exact ⟨[], by simp [writeFieldsLoop], by simp⟩
  | cons k1 keys ih =>
    unfold writeFieldsLoop
    by_cases hv : mapIndex m k1 = []
    · simp only [writeField, hv, if_true]
      obtain ⟨ps, h1, h2⟩ := ih w
      refine ⟨ps, h1, ?_⟩
      intro p hp
      obtain ⟨k2, hk2, h3⟩ := h2 p hp
      exact ⟨k2, List.mem_cons_of_mem _ hk2, h3⟩
    · simp only [writeField, hv, if_false, ioWriteString]
      rcases hres : (w.Write (k1 ++ ascii ": " ++ mapIndex m k1 ++ ascii "\r\n")) with ⟨w1, n, e⟩
      have hlog : w1.log = w.log ++ [fieldLine k1 (mapIndex m k1)] := by
        have := congrArg (fun r => r.1.log) hres
        simpa [Writer.Write, fieldLine] using this.symm
      cases e with
      | some err =>
        refine ⟨[fieldLine k1 (mapIndex m k1)], hlog, ?_⟩
        intro p hp
        exact ⟨k1, List.mem_cons_self _ _, hv, by simpa using hp⟩
      | none =>
        obtain ⟨ps, h1, h2⟩ := ih w1
        refine ⟨fieldLine k1 (mapIndex m k1) :: ps, ?_, ?_⟩
        · simp only []
          rw [h1, hlog]
          simp
        · intro p hp
          rcases List.mem_cons.mp hp with hp | hp
          · exact ⟨k1, List.mem_cons_self _ _, hv, hp⟩
          · obtain ⟨k2, hk2, h3⟩ := h2 p hp
            exact ⟨k2, List.mem_cons_of_mem _ hk2, h3⟩

/-- C4: for a field map `m` and a key `k` whose value in `m` is the empty
string, `writeFields` on `m` gives, on any destination, the same result (the
same bytes written, the same writes, the same error) as on `m` with `k`
removed; on a destination that never fails it returns nil; and every line it
issues is the line `k1: v1` CR LF of an entry of `m` with `k1 ≠ k` and `v1`
not empty, so that no line is produced for the entry of `k`. -/
theorem writeFields_skips_empty (w : Writer) (m : GoMap) (k : Bytes)
    (hwf : m.WF) (hk : (k, []) ∈ m) :
    writeFields w m = writeFields w (m.filter (fun e => e.1 ≠ k)) ∧
    (writeFields w m).1.out = (writeFields w (m.filter (fun e => e.1 ≠ k))).1.out ∧
    (w.NeverFails → (writeFields w m).2 = none) ∧
    (∃ ps : List Bytes, (writeFields w m).1.log = w.log ++ ps ∧
      ∀ p ∈ ps, ∃ k1 v1, (k1, v1) ∈ m ∧ k1 ≠ k ∧ v1 ≠ [] ∧
        p = k1 ++ ascii ": " ++ v1 ++ ascii "\r\n") := by
  have hidx : mapIndex m k = [] := mapIndex_of_mem m hwf k [] hk
  have heq := writeFields_remove_empty w m k hidx
  refine ⟨heq, by rw [heq], ?_, ?_⟩
  · intro hw
    rw [writeFields_neverFails w m hw]
  · obtain ⟨ps, h1, h2⟩ := writeFieldsLoop_log w m (sortSlice strLess (m.map Prod.fst))
    refine ⟨ps, h1, ?_⟩
    intro p hp
    obtain ⟨k1, hk1, hv, hpe⟩ := h2 p hp
    have hk1m : k1 ∈ m.map Prod.fst := (sortSlice_perm strLess _).mem_iff.mp hk1
    obtain ⟨e, he, hek⟩ := List.mem_map.mp hk1m
    obtain ⟨k2, v2⟩ := e
    simp only at hek
    subst hek
    have hv2 : mapIndex m k2 = v2 := mapIndex_of_mem m hwf k2 v2 he
    refine ⟨k2, v2, he, ?_, ?_, ?_⟩
    · intro hkk
      subst hkk
      exact hv hidx
    · rw [← hv2]; exact hv
    · rw [hpe, hv2]; rfl

theorem writeFields_skips_empty_witness :
    GoMap.WF [(ascii "A", ascii "1"), (ascii "B", []), (ascii "C", ascii "3")] ∧
    (ascii "B", []) ∈ [(ascii "A", ascii "1"), (ascii "B", []), (ascii "C", ascii "3")] ∧
    (writeFields Writer.reliable
        [(ascii "A", ascii "1"), (ascii "B", []), (ascii "C", ascii "3")]).1.out
      = (writeFields Writer.reliable
          ([(ascii "A", ascii "1"), (ascii "B", []), (ascii "C", ascii "3")].filter
            (fun e => e.1 ≠ ascii "B"))).1.out :=
  ⟨by decide, by decide,
    (writeFields_skips_empty Writer.reliable
      [(ascii "A", ascii "1"), (ascii "B", []), (ascii "C", ascii "3")] (ascii "B")
      (by decide) (by decide)).2.1⟩

/-! ## C5, C6: sequences of records -/

theorem Record_Write_neverFails (r : Record) (w : Writer) (hw : w.NeverFails) :
    r.Write w = (w.pushAll (recordWrites r),
      if r.Content.final = Error.EOF then none else some r.Content.final) := by
  unfold Record.Write
  rw [writeHeader_neverFails w r hw]
  simp only []
  have hw1 := writeHeader_keeps_neverFails w r hw
  rw [writeHeader_neverFails w r hw] at hw1
  simp only [] at hw1
  unfold writeBlock
  rw [ioCopy_neverFails _ _ hw1]
  by_cases hr : r.Content.final = Error.EOF
  · simp only [hr, if_true, ioWriteString]
    rw [Write_neverFails _ _ (pushAll_neverFails _ _ hw1)]
    simp [recordWrites, hr, pushAll_append, Writer.pushAll]
  · simp [recordWrites, hr, pushAll_append, Writer.pushAll]

theorem Record_Write_out (r : Record) (w : Writer) (hw : w.NeverFails) :
    (r.Write w).1.out = w.out ++ (r.Write Writer.reliable).1.out ∧
    (r.Write w).2 = (r.Write Writer.reliable).2 ∧ (r.Write w).1.NeverFails := by
  rw [Record_Write_neverFails r w hw, Record_Write_neverFails r Writer.reliable (fun _ _ => rfl)]
  refine ⟨?_, rfl, pushAll_neverFails _ _ hw⟩
  simp only [pushAll_out]
  rfl

/-- C5: on a destination that never fails, for records whose individual
writes (each to a fresh destination that never fails) all return nil,
`WriteRecords` returns nil and appends exactly the concatenation, in order, of
the bytes of those individual writes; for the empty sequence it returns nil
and leaves the destination as it was. -/
theorem WriteRecords_concat (w : Writer) (rs : List Record) (hw : w.NeverFails)
    (hrs : ∀ r ∈ rs, (r.Write Writer.reliable).2 = none) :
    (WriteRecords w rs).2 = none ∧
    (WriteRecords w rs).1.out
      = w.out ++ (rs.map (fun r => (r.Write Writer.reliable).1.out)).flatten ∧
    WriteRecords w [] = (w, none) := by
  refine ⟨?_, ?_, rfl⟩
  · induction rs generalizing w with
    | nil => rfl
    | cons r rs ih =>
      obtain ⟨_, h2, h3⟩ := Record_Write_out r w hw
      have hr := hrs r (List.mem_cons_self _ _)
      rw [← h2] at hr
      unfold WriteRecords
      rcases hres : r.Write w with ⟨w1, e⟩
      rw [hres] at hr h3
      simp only at hr h3
      subst hr
      exact ih w1 h3 (fun r2 h => hrs r2 (List.mem_cons_of_mem _ h))
  · induction rs generalizing w with
    | nil => simp [WriteRecords]
    | cons r rs ih =>
      obtain ⟨h1, h2, h3⟩ := Record_Write_out r w hw
      have hr := hrs r (List.mem_cons_self _ _)
      rw [← h2] at hr
      unfold WriteRecords
      rcases hres : r.Write w with ⟨w1, e⟩
      rw [hres] at hr h1 h3
      simp only at hr h1 h3
      subst hr
      simp only []
      rw [ih w1 h3 (fun r2 h => hrs r2 (List.mem_cons_of_mem _ h)), h1]
      simp

theorem WriteRecords_concat_witness :
    Writer.reliable.NeverFails ∧
    (∀ r ∈ [helloRecord, helloRecord], (r.Write Writer.reliable).2 = none) ∧
    (WriteRecords Writer.reliable [helloRecord, helloRecord]).1.out
      = Writer.reliable.out ++ ([helloRecord, helloRecord].map
          (fun r => (r.Write Writer.reliable).1.out)).flatten :=
  ⟨fun _ _ => rfl, by decide,
    (WriteRecords_concat Writer.reliable [helloRecord, helloRecord] (fun _ _ => rfl)
      (by decide)).2.1⟩

theorem WriteRecords_of_allSucceed (w : Writer) (rs : List Record)
    (h : allSucceed w rs = true) : WriteRecords w rs = (writeSeq w rs, none) := by
  induction rs generalizing w with
  | nil => rfl
  | cons r rs ih =>
    simp only [allSucceed, Bool.and_eq_true, decide_eq_true_eq] at h
    unfold WriteRecords writeSeq
    rcases hres : r.Write w with ⟨w1, e⟩
    rw [hres] at h
    simp only at h
    obtain ⟨h1, h2⟩ := h
    subst h1
    exact ih w1 h2

theorem WriteRecords_nil_iff (w : Writer) (rs : List Record) :
    (WriteRecords w rs).2 = none ↔ allSucceed w rs = true := by
  induction rs generalizing w with
  | nil => simp [WriteRecords, allSucceed]
  | cons r rs ih =>
    simp only [allSucceed, Bool.and_eq_true, decide_eq_true_eq]
    unfold WriteRecords
    rcases hres : r.Write w with ⟨w1, e⟩
    cases e with
    | some err => simp
    | none => simpa using ih w1

/-- C6: if the records `pre` all write successfully in turn and the write of
the next record `rec` fails with `e`, then `WriteRecords` on `pre`, `rec` and
any further records `post` returns exactly `e` and leaves the destination in
the state in which the failing write of `rec` left it, `rec` having been
written to the state that follows the complete writes of `pre` (nothing of
`post` is written); and `WriteRecords` returns nil exactly when every record
writes successfully in turn. -/
theorem WriteRecords_fail_fast (w : Writer) (pre post : List Record) (rec : Record) (e : Error)
    (hpre : allSucceed w pre = true)
    (hrec : (rec.Write (writeSeq w pre)).2 = some e) :
    WriteRecords w (pre ++ rec :: post) = ((rec.Write (writeSeq w pre)).1, some e) ∧
    WriteRecords w pre = (writeSeq w pre, none) ∧
    (∀ rs : List Record, (WriteRecords w rs).2 = none ↔ allSucceed w rs = true) := by
  refine ⟨?_, WriteRecords_of_allSucceed w pre hpre, fun rs => WriteRecords_nil_iff w rs⟩
  induction pre generalizing w with
  | nil =>
    simp only [writeSeq] at hrec
    simp only [List.nil_append, writeSeq]
    unfold WriteRecords
    rcases hres : rec.Write w with ⟨w1, e1⟩
    rw [hres] at hrec
    simp only at hrec
    subst hrec
    rfl
  | cons r pre ih =>
    simp only [allSucceed, Bool.and_eq_true, decide_eq_true_eq] at hpre
    simp only [writeSeq] at hrec
    simp only [List.cons_append, writeSeq]
    unfold WriteRecords
    rcases hres : r.Write w with ⟨w1, e1⟩
    rw [hres] at hpre hrec
    simp only at hpre hrec
    obtain ⟨h1, h2⟩ := hpre
    subst h1
    exact ih w1 h2 hrec

theorem WriteRecords_fail_fast_witness :
    allSucceed Writer.reliable [helloRecord] = true ∧
    (brokenRecord.Write (writeSeq Writer.reliable [helloRecord])).2 = some (Error.other 1) ∧
    WriteRecords Writer.reliable ([helloRecord] ++ brokenRecord :: [helloRecord])
      = ((brokenRecord.Write (writeSeq Writer.reliable [helloRecord])).1, some (Error.other 1)) :=
  ⟨by decide, by decide,
    (WriteRecords_fail_fast Writer.reliable [helloRecord] [helloRecord] brokenRecord
      (Error.other 1) (by decide) (by decide)).1⟩

/-! ## C7: a content source that fails -/

/-- C7: on a destination that never fails, for a content source that
delivers the bytes `r.data` and then fails with a read error `e` (an error
other than `io.EOF`), `writeBlock` returns `e`, the destination has received
exactly those bytes, and the only writes issued are the copied reads: the
closing CR LF CR LF is not written. -/
theorem writeBlock_read_error (w : Writer) (r : Reader) (e : Error) (hw : w.NeverFails)
    (hr : r.final = e) (he : e ≠ Error.EOF) :
    (writeBlock w r).2 = some e ∧
    (writeBlock w r).1.out = w.out ++ r.data ∧
    (writeBlock w r).1.log = w.log ++ r.chunks := by
  subst hr
  unfold writeBlock
  rw [ioCopy_neverFails w r hw]
  simp only [he, if_false]
  refine ⟨trivial, ?_, ?_⟩
  · rw [pushAll_out, chunks_join]
  · exact pushAll_log _ _

theorem writeBlock_read_error_witness :
    Writer.reliable.NeverFails ∧
    Reader.final failingReader = Error.other 7 ∧
    Error.other 7 ≠ Error.EOF ∧
    (writeBlock Writer.reliable failingReader).2 = some (Error.other 7) ∧
    (writeBlock Writer.reliable failingReader).1.out
      = Writer.reliable.out ++ Reader.data failingReader :=
  ⟨fun _ _ => rfl, rfl, by decide,
    (writeBlock_read_error Writer.reliable failingReader (Error.other 7) (fun _ _ => rfl) rfl
      (by decide)).1,
    (writeBlock_read_error Writer.reliable failingReader (Error.other 7) (fun _ _ => rfl) rfl
      (by decide)).2.1⟩

/-! ## C8, C9: bytes.LastIndex and replaceBlockBody -/

theorem lastIndexFrom_none (s sep : Bytes) (n : Nat)
    (h : ∀ k, k < n → (s.drop k).take sep.length ≠ sep) : lastIndexFrom s sep n = -1 := by
  induction n with
  | zero => rfl
  | succ n ih =>
    unfold lastIndexFrom
    rw [if_neg (h n (Nat.lt_succ_self n))]
    exact ih (fun k hk => h k (Nat.lt_succ_of_lt hk))

theorem lastIndexFrom_last (s sep : Bytes) (n i : Nat) (hi : i < n)
    (hocc : (s.drop i).take sep.length = sep)
    (hlast : ∀ j, i < j → j < n → (s.drop j).take sep.length ≠ sep) :
    lastIndexFrom s sep n = (i : Int) := by
  induction n with
  | zero => exact absurd hi (Nat.not_lt_zero i)
  | succ n ih =>
    unfold lastIndexFrom
    by_cases hn : (s.drop n).take sep.length = sep
    · rw [if_pos hn]
      have : i = n := by
        by_contra hne
        have hlt : i < n := by omega
        exact hlast n hlt (Nat.lt_succ_self n) hn
      rw [this]
    · rw [if_neg hn]
      have hlt : i < n := by
        have : i ≠ n := fun h => hn (h ▸ hocc)
        omega
      exact ih hlt (fun j h1 h2 => hlast j h1 (Nat.lt_succ_of_lt h2))

theorem exists_last_occurrence (s sep : Bytes) (n : Nat)
    (h : ∃ k, k < n ∧ (s.drop k).take sep.length = sep) :
    ∃ i, i < n ∧ (s.drop i).take sep.length = sep ∧
      ∀ j, i < j → j < n → (s.drop j).take sep.length ≠ sep := by
  induction n with
  | zero =>
    obtain ⟨k, hk, _⟩ := h
    exact absurd hk (Nat.not_lt_zero k)
  | succ n ih =>
    by_cases hn : (s.drop n).take sep.length = sep
    · exact ⟨n, Nat.lt_succ_self n, hn, fun j h1 h2 => by omega⟩
    · obtain ⟨k, hk, hocc⟩ := h
      have hkn : k < n := by
        have : k ≠ n := fun h => hn (h ▸ hocc)
        omega
      obtain ⟨i, hi, hio, hil⟩ := ih ⟨k, hkn, hocc⟩
      refine ⟨i, Nat.lt_succ_of_lt hi, hio, ?_⟩
      intro j h1 h2
      by_cases hjn : j = n
      · rw [hjn]; exact hn
      · exact hil j h1 (by omega)

theorem occurrence_bound (s : Bytes) (k : Nat) (h : (s.drop k).take crlf.length = crlf) :
    k + 2 ≤ s.length := by
  have hl := congrArg List.length h
  simp only [List.length_take, List.length_drop] at hl
  have h2 : crlf.length = 2 := rfl
  rw [h2] at hl
  omega

theorem infix_iff_occurrence (s : Bytes) :
    crlf <:+: s ↔ ∃ k, (s.drop k).take crlf.length = crlf := by
  constructor
  · rintro ⟨a, b, hab⟩
    refine ⟨a.length, ?_⟩
    rw [← hab]
    simp [List.append_assoc]
  · rintro ⟨k, hk⟩
    refine ⟨s.take k, (s.drop k).drop crlf.length, ?_⟩
    rw [List.append_assoc]
    nth_rewrite 1 [← hk]
    rw [List.take_append_drop, List.take_append_drop]

/-- C8: for every byte sequence `data` in which CR LF does not occur (the
empty sequence and sequences with a lone CR or a lone LF among them) and every
`repl`, `replaceBlockBody` returns exactly `repl` with a nil error. -/
theorem replaceBlockBody_no_crlf (data repl : Bytes) (h : ¬ crlf <:+: data) :
    replaceBlockBody data repl = (repl, none) := by
  have hnone : LastIndex data crlf = -1 := by
    unfold LastIndex
    split
    · rfl
    · exact lastIndexFrom_none data crlf _
        (fun k _ hk => h ((infix_iff_occurrence data).mpr ⟨k, hk⟩))
  unfold replaceBlockBody
  simp [hnone]

theorem replaceBlockBody_no_crlf_witness :
    (¬ crlf <:+: ascii "a\rb\nc") ∧
    replaceBlockBody (ascii "a\rb\nc") (ascii "new") = (ascii "new", none) :=
  ⟨by decide, replaceBlockBody_no_crlf (ascii "a\rb\nc") (ascii "new") (by decide)⟩

/-- C9: for every byte sequence `data` in which CR LF occurs and every
`repl`, there is the index `start` of the last occurrence of CR LF in `data`
(CR LF is at `start` and at no later index), `bytes.LastIndex` returns it, and
`replaceBlockBody` returns, with a nil error, the suffix of `data` from
`start` on followed by `repl`, of length `len(data) - start + len(repl)`. -/
theorem replaceBlockBody_last_crlf (data repl : Bytes) (h : crlf <:+: data) :
    ∃ start : Nat, start + 2 ≤ data.length ∧
      (data.drop start).take 2 = crlf ∧
      (∀ j, start < j → (data.drop j).take 2 ≠ crlf) ∧
      LastIndex data crlf = (start : Int) ∧
      replaceBlockBody data repl = (data.drop start ++ repl, none) ∧
      (replaceBlockBody data repl).1.length = data.length - start + repl.length := by
  have h2 : crlf.length = 2 := rfl
  obtain ⟨k, hk⟩ := (infix_iff_occurrence data).mp h
  have hkb := occurrence_bound data k hk
  obtain ⟨i, hi, hio, hil⟩ := exists_last_occurrence data crlf (data.length - crlf.length + 1)
    ⟨k, by rw [h2]; omega, hk⟩
  have hlast : ∀ j, i < j → (data.drop j).take crlf.length ≠ crlf := by
    intro j hj hocc
    have := occurrence_bound data j hocc
    exact hil j hj (by rw [h2]; omega) hocc
  have hidx : LastIndex data crlf = (i : Int) := by
    unfold LastIndex
    rw [if_neg (by rw [h2]; omega)]
    exact lastIndexFrom_last data crlf _ i hi hio hil
  have hres : replaceBlockBody data repl = (data.drop i ++ repl, none) := by
    unfold replaceBlockBody
    simp only [hidx]
    rw [if_neg (by omega)]
    simp
  refine ⟨i, occurrence_bound data i hio, hio, hlast, hidx, hres, ?_⟩
  rw [hres]
  simp [List.length_drop]

theorem replaceBlockBody_last_crlf_witness :
    crlf <:+: ascii "ab\r\ncd\r\nef" ∧
    ∃ start : Nat, start + 2 ≤ (ascii "ab\r\ncd\r\nef").length ∧
      ((ascii "ab\r\ncd\r\nef").drop start).take 2 = crlf ∧
      (∀ j, start < j → ((ascii "ab\r\ncd\r\nef").drop j).take 2 ≠ crlf) ∧
      LastIndex (ascii "ab\r\ncd\r\nef") crlf = (start : Int) ∧
      replaceBlockBody (ascii "ab\r\ncd\r\nef") (ascii "X")
        = ((ascii "ab\r\ncd\r\nef").drop start ++ ascii "X", none) ∧
      (replaceBlockBody (ascii "ab\r\ncd\r\nef") (ascii "X")).1.length
        = (ascii "ab\r\ncd\r\nef").length - start + (ascii "X").length :=
  ⟨by decide, replaceBlockBody_last_crlf (ascii "ab\r\ncd\r\nef") (ascii "X") (by decide)⟩

/-! ## C10: replaceBlockBody on a serialized record -/

/-- C10 (the code at the failing input): for the record with format
`WARC/1.0`, no headers and content `hello`, serialized as
`WARC/1.0\r\n\r\nhello\r\n\r\n`, `replaceBlockBody` with the new body `bye`
returns `\r\nbye`: the result does not begin with the written header section
`WARC/1.0\r\n\r\n`, which is lost. -/
theorem replaceBlockBody_loses_header :
    (writeHeader Writer.reliable helloRecord).1.out = ascii "WARC/1.0\r\n\r\n" ∧
    (writeBlock (writeHeader Writer.reliable helloRecord).1 helloRecord.Content).1.out
      = ascii "WARC/1.0\r\n\r\nhello\r\n\r\n" ∧
    replaceBlockBody
        (writeBlock (writeHeader Writer.reliable helloRecord).1 helloRecord.Content).1.out
        (ascii "bye") = (ascii "\r\nbye", none) ∧
    ¬ (writeHeader Writer.reliable helloRecord).1.out <+: ascii "\r\nbye" := by
  decide

/-! ## Sequences of writes -/

theorem writeAll_neverFails (w : Writer) (ps : List Bytes) (hw : w.NeverFails) :
    writeAll w ps = (w.pushAll ps, none) := by
  induction ps generalizing w with
  | nil => rfl
  | cons p ps ih =>
    unfold writeAll
    rw [Write_neverFails w p hw]
    exact ih _ (push_neverFails w p hw)

theorem writeAll_cons (w : Writer) (p : Bytes) (ps : List Bytes) :
    writeAll w (p :: ps)
      = match w.Write p with
        | (w1, _, some e) => (w1, some e)
        | (w1, _, none) => writeAll w1 ps := rfl

theorem writeAll_append (w : Writer) (a b : List Bytes) :
    writeAll w (a ++ b)
      = match writeAll w a with
        | (w1, some e) => (w1, some e)
        | (w1, none) => writeAll w1 b := by
  induction a generalizing w with
  | nil => rfl
  | cons p a ih =>
    show writeAll w (p :: (a ++ b)) = _
    rw [writeAll_cons, writeAll_cons]
    rcases hres : w.Write p with ⟨w1, n, e⟩
    cases e with
    | some err => rfl
    | none => exact ih w1

theorem writeFieldsLoop_eq_writeAll (w : Writer) (m : GoMap) (keys : List Bytes) :
    writeFieldsLoop w m keys = writeAll w (fieldLines m keys) := by
  induction keys generalizing w with
  | nil => rfl
  | cons k keys ih =>
    unfold writeFieldsLoop
    by_cases hv : mapIndex m k = []
    · have hf : fieldLines m (k :: keys) = fieldLines m keys := by
        simp [fieldLines, List.filter_cons, hv]
      rw [hf]
      simp only [writeField, hv, if_true]
      exact ih w
    · have hf : fieldLines m (k :: keys)
          = fieldLine k (mapIndex m k) :: fieldLines m keys := by
        simp [fieldLines, List.filter_cons, hv]
      rw [hf]
      simp only [writeField, hv, if_false, ioWriteString]
      unfold writeAll
      have hl : k ++ ascii ": " ++ mapIndex m k ++ ascii "\r\n" = fieldLine k (mapIndex m k) := rfl
      rw [hl]
      rcases hres : w.Write (fieldLine k (mapIndex m k)) with ⟨w1, n, e⟩
      cases e with
      | some err => rfl
      | none => exact ih w1

theorem writeFields_eq_writeAll (w : Writer) (m : GoMap) :
    writeFields w m = writeAll w (fieldLines m (sortSlice strLess (m.map Prod.fst))) :=
  writeFieldsLoop_eq_writeAll w m _

theorem writeHeader_eq_writeAll (w : Writer) (r : Record) :
    writeHeader w r = writeAll w (headerWrites r) := by
  unfold writeHeader writeWarcVersion ioWriteString headerWrites
  unfold writeAll
  rcases hres : w.Write (r.Format.String ++ ascii "\r\n") with ⟨w1, n, e⟩
  cases e with
  | some err => rfl
  | none =>
    simp only []
    rw [writeAll_append, writeFields_eq_writeAll]
    rcases hres2 : writeAll w1 (fieldLines r.Headers
        (sortSlice strLess (r.Headers.map Prod.fst))) with ⟨w2, e2⟩
    cases e2 with
    | some err => rfl
    | none =>
      simp only []
      unfold writeAll
      rcases hres3 : w2.Write (ascii "\r\n") with ⟨w3, n3, e3⟩
      cases e3 with
      | some err => rfl
      | none => rfl

theorem WriteHTTPHeadersLoop_eq_writeAll (w : Writer) (h : Header) (ks : List Bytes) :
    WriteHTTPHeadersLoop w h ks
      = writeAll w (ks.map (fun k => k ++ ascii ": " ++ h.Get k ++ ascii "\n")) := by
  induction ks generalizing w with
  | nil => rfl
  | cons k ks ih =>
    simp only [List.map_cons]
    unfold WriteHTTPHeadersLoop writeAll ioWriteString
    rcases hres : w.Write (k ++ ascii ": " ++ h.Get k ++ ascii "\n") with ⟨w1, n, e⟩
    cases e with
    | some err => rfl
    | none => exact ih w1

theorem WriteHTTPHeaders_eq_writeAll (w : Writer) (h : Header) :
    WriteHTTPHeaders w h = writeAll w (httpLines h) := by
  unfold WriteHTTPHeaders httpLines
  rw [WriteHTTPHeadersLoop_eq_writeAll, List.map_map]
  rfl

theorem writeAll_first_error (w : Writer) (pre post : List Bytes) (p : Bytes) (e : Error)
    (hpre : allAccepted w pre = true) (hp : ((w.feed pre).Write p).2.2 = some e) :
    writeAll w (pre ++ p :: post) = (((w.feed pre).Write p).1, some e) := by
  induction pre generalizing w with
  | nil =>
    simp only [Writer.feed] at hp
    simp only [List.nil_append, Writer.feed]
    unfold writeAll
    rcases hres : w.Write p with ⟨w1, n, e1⟩
    rw [hres] at hp
    simp only at hp
    subst hp
    rfl
  | cons q pre ih =>
    simp only [allAccepted, Bool.and_eq_true, decide_eq_true_eq] at hpre
    simp only [Writer.feed] at hp
    simp only [List.cons_append, Writer.feed]
    unfold writeAll
    rcases hres : w.Write q with ⟨w1, n, e1⟩
    rw [hres] at hpre hp
    simp only at hpre hp
    obtain ⟨h1, h2⟩ := hpre
    subst h1
    exact ih w1 h2 hp

theorem feed_log (w : Writer) (ps : List Bytes) : (w.feed ps).log = w.log ++ ps := by
  induction ps generalizing w with
  | nil => simp [Writer.feed]
  | cons p ps ih =>
    simp only [Writer.feed]
    rw [ih]
    simp [Writer.Write]

/-! ## C11: the request line -/

/-- C11: on a destination that never fails, `WriteRequestMethodAndHeaders`
appends first the request line and then the header lines: for an empty Method
the output begins with `GET / `, the protocol and a single line feed, for a
non-empty Method `M` with `M`, ` / `, the protocol and a single line feed. -/
theorem WriteRequestMethodAndHeaders_first_line (w : Writer) (req : Request)
    (hw : w.NeverFails) :
    (req.Method = [] →
      (WriteRequestMethodAndHeaders w req).1.out
        = w.out ++ (ascii "GET / " ++ req.Proto ++ ascii "\n")
            ++ (httpLines req.Header).flatten) ∧
    (req.Method ≠ [] →
      (WriteRequestMethodAndHeaders w req).1.out
        = w.out ++ (req.Method ++ ascii " / " ++ req.Proto ++ ascii "\n")
            ++ (httpLines req.Header).flatten) := by
  constructor
  · intro hm
    unfold WriteRequestMethodAndHeaders ioWriteString
    simp only [hm, if_true]
    rw [Write_neverFails w _ hw, WriteHTTPHeaders_eq_writeAll,
      writeAll_neverFails _ _ (push_neverFails w _ hw), pushAll_out]
    have hg : ascii "GET" ++ ascii " / " = ascii "GET / " := by decide
    simp only [Writer.push, ← hg, List.append_assoc]
  · intro hm
    unfold WriteRequestMethodAndHeaders ioWriteString
    simp only [hm, if_false]
    rw [Write_neverFails w _ hw, WriteHTTPHeaders_eq_writeAll,
      writeAll_neverFails _ _ (push_neverFails w _ hw), pushAll_out]
    simp only [Writer.push, List.append_assoc]

theorem WriteRequestMethodAndHeaders_first_line_witness :
    Writer.reliable.NeverFails ∧
    (WriteRequestMethodAndHeaders Writer.reliable
        { Method := [], Proto := ascii "HTTP/1.1", Header := [] }).1.out
      = Writer.reliable.out ++ (ascii "GET / " ++ ascii "HTTP/1.1" ++ ascii "\n")
          ++ (httpLines []).flatten :=
  ⟨fun _ _ => rfl,
    (WriteRequestMethodAndHeaders_first_line Writer.reliable
      { Method := [], Proto := ascii "HTTP/1.1", Header := [] } (fun _ _ => rfl)).1 rfl⟩

/-! ## C12: the record identifier -/

/-- C12: for every generated UUID text `u`, `NewUUID` returns exactly
`<urn:uuid:` followed by `u` followed by `>`; the result starts with
`<urn:uuid:`, ends with `>`, and two results are equal exactly when the
generated texts are equal. -/
theorem NewUUID_format (u u2 : Bytes) :
    NewUUID u = ascii "<urn:uuid:" ++ u ++ ascii ">" ∧
    ascii "<urn:uuid:" <+: NewUUID u ∧
    ascii ">" <:+ NewUUID u ∧
    (NewUUID u = NewUUID u2 ↔ u = u2) := by
  refine ⟨rfl, ⟨u ++ ascii ">", by simp [NewUUID]⟩, ⟨ascii "<urn:uuid:" ++ u, rfl⟩, ?_⟩
  constructor
  · intro h
    unfold NewUUID at h
    rw [List.append_assoc, List.append_assoc] at h
    exact List.append_cancel_right (List.append_cancel_left h)
  · intro h
    rw [h]

/-! ## C13: the error of the header lines -/

/-- C13 (the code at the failing input): on a destination that accepts the
first write and rejects the second, for the request `GET / HTTP/1.1` with the
header `Accept: a`, the request line is written, the write of the header line
fails (`WriteHTTPHeaders` returns the error), and
`WriteRequestMethodAndHeaders` nevertheless returns nil. -/
theorem WriteRequestMethodAndHeaders_drops_header_error :
    ((failAfter 1).Write (ascii "GET / HTTP/1.1\n")).2.2 = none ∧
    (WriteHTTPHeaders ((failAfter 1).Write (ascii "GET / HTTP/1.1\n")).1 getRequest.Header).2
      = some (Error.other 1) ∧
    (WriteRequestMethodAndHeaders (failAfter 1) getRequest).1.log
      = [ascii "GET / HTTP/1.1\n", ascii "Accept: a\n"] ∧
    (WriteRequestMethodAndHeaders (failAfter 1) getRequest).1.out = ascii "GET / HTTP/1.1\n" ∧
    (WriteRequestMethodAndHeaders (failAfter 1) getRequest).2.2 = none := by
  decide

/-! ## C14: writeFields and writeHeader stop at the first write error -/

/-- C14: if the writes `pre`, issued in turn, all return nil and the next
write `p` returns the error `e`, then `writeFields` on a map whose lines are
`pre`, `p` and any further lines `post`, and `writeHeader` on a record whose
version line, field lines and blank line are `pre`, `p`, `post`, return
exactly `e` and leave the destination in the state the failing write left it
in: the writes issued are `pre` and `p` and none of `post`, and the bytes
accepted before the failure are still there. -/
theorem writes_stop_at_first_error (w : Writer) (pre post : List Bytes) (p : Bytes) (e : Error)
    (hpre : allAccepted w pre = true) (hp : ((w.feed pre).Write p).2.2 = some e) :
    (∀ m : GoMap, fieldLines m (sortSlice strLess (m.map Prod.fst)) = pre ++ p :: post →
      writeFields w m = (((w.feed pre).Write p).1, some e)) ∧
    (∀ r : Record, headerWrites r = pre ++ p :: post →
      writeHeader w r = (((w.feed pre).Write p).1, some e)) ∧
    ((w.feed pre).Write p).1.log = w.log ++ pre ++ [p] ∧
    (w.feed pre).out <+: ((w.feed pre).Write p).1.out := by
  refine ⟨?_, ?_, ?_, ?_⟩
  · intro m hm
    rw [writeFields_eq_writeAll, hm]
    exact writeAll_first_error w pre post p e hpre hp
  · intro r hr
    rw [writeHeader_eq_writeAll, hr]
    exact writeAll_first_error w pre post p e hpre hp
  · simp [Writer.Write, feed_log]
  · exact ⟨_, rfl⟩

theorem writes_stop_at_first_error_witness :
    allAccepted (failAfter 1) [ascii "A: 1\r\n"] = true ∧
    (((failAfter 1).feed [ascii "A: 1\r\n"]).Write (ascii "B: 2\r\n")).2.2
      = some (Error.other 1) ∧
    writeFields (failAfter 1)
        [(ascii "C", ascii "3"), (ascii "B", ascii "2"), (ascii "A", ascii "1")]
      = ((((failAfter 1).feed [ascii "A: 1\r\n"]).Write (ascii "B: 2\r\n")).1,
          some (Error.other 1)) ∧
    writeHeader (failAfter 1)
        { Format := { token := ascii "A: 1" }, Headers := [(ascii "B", ascii "2")],
          Content := [] }
      = ((((failAfter 1).feed [ascii "A: 1\r\n"]).Write (ascii "B: 2\r\n")).1,
          some (Error.other 1)) :=
  ⟨by decide, by decide,
    (writes_stop_at_first_error (failAfter 1) [ascii "A: 1\r\n"] [ascii "C: 3\r\n"]
      (ascii "B: 2\r\n") (Error.other 1) (by decide) (by decide)).1 _ (by decide),
    (writes_stop_at_first_error (failAfter 1) [ascii "A: 1\r\n"] [ascii "\r\n"]
      (ascii "B: 2\r\n") (Error.other 1) (by decide) (by decide)).2.1 _ (by decide)⟩

/-! ## C15: the header lines -/

/-- C15 (the code at the failing input): for the header set with the single
name `x-foo`, stored with the one value `1`, on a destination that never
fails, `WriteHTTPHeaders` returns nil and writes the single line `x-foo: `
with an empty value: `Get` looks the name up in its canonical form `X-Foo`,
under which nothing is stored, so the stored value is dropped and the line
`x-foo: 1` is not written. -/
theorem WriteHTTPHeaders_noncanonical_name :
    Header.WF [(ascii "x-foo", [ascii "1"])] ∧
    Writer.reliable.NeverFails ∧
    headerIndex [(ascii "x-foo", [ascii "1"])] (ascii "x-foo") = [ascii "1"] ∧
    CanonicalMIMEHeaderKey (ascii "x-foo") = ascii "X-Foo" ∧
    Header.Get [(ascii "x-foo", [ascii "1"])] (ascii "x-foo") = [] ∧
    (WriteHTTPHeaders Writer.reliable [(ascii "x-foo", [ascii "1"])]).2 = none ∧
    (WriteHTTPHeaders Writer.reliable [(ascii "x-foo", [ascii "1"])]).1.log
      = [ascii "x-foo: \n"] ∧
    (WriteHTTPHeaders Writer.reliable [(ascii "x-foo", [ascii "1"])]).1.out
      = ascii "x-foo: \n" ∧
    ascii "x-foo: 1\n" ∉
      (WriteHTTPHeaders Writer.reliable [(ascii "x-foo", [ascii "1"])]).1.log :=
  ⟨by decide, fun _ _ => rfl, by decide, by decide, by decide, by decide, by decide,
    by decide, by decide⟩

/-! ## C16: replaceBlockBody on data that ends with CR LF -/

/-- C16: for every byte sequence that ends with CR LF and every `repl`,
`replaceBlockBody` returns CR LF followed by `repl`, of length
`len(repl) + 2`, whatever precedes the final CR LF; in particular this is the
result on the bytes `writeHeader` and `writeBlock` append to an empty
destination that never fails, for a record whose content source ends with
`io.EOF`: nothing of the version line, field lines or content is kept. -/
theorem replaceBlockBody_crlf_suffix (pre repl : Bytes) (r : Record)
    (hr : r.Content.final = Error.EOF) :
    replaceBlockBody (pre ++ crlf) repl = (crlf ++ repl, none) ∧
    (replaceBlockBody (pre ++ crlf) repl).1.length = repl.length + 2 ∧
    replaceBlockBody (writeBlock (writeHeader Writer.reliable r).1 r.Content).1.out repl
      = (crlf ++ repl, none) := by
  have h2 : crlf.length = 2 := rfl
  have key : ∀ a : Bytes, replaceBlockBody (a ++ crlf) repl = (crlf ++ repl, none) := by
    intro a
    have hocc : ((a ++ crlf).drop a.length).take crlf.length = crlf := by simp
    have hidx : LastIndex (a ++ crlf) crlf = (a.length : Int) := by
      unfold LastIndex
      rw [if_neg (by simp)]
      refine lastIndexFrom_last _ _ _ a.length (by simp) hocc ?_
      intro j h1 h3
      simp only [List.length_append, h2] at h3
      omega
    unfold replaceBlockBody
    simp only [hidx]
    rw [if_neg (by omega)]
    simp
  refine ⟨key pre, ?_, ?_⟩
  · rw [key pre]
    simp only [List.length_append, h2]
    omega
  · have hw : Writer.reliable.NeverFails := fun _ _ => rfl
    rw [writeBlock_neverFails _ _ (writeHeader_keeps_neverFails _ r hw) hr]
    have h4 : ascii "\r\n\r\n" = ascii "\r\n" ++ crlf := by decide
    simp only [Writer.push, h4, ← List.append_assoc]
    exact key _

theorem replaceBlockBody_crlf_suffix_witness :
    helloRecord.Content.final = Error.EOF ∧
    replaceBlockBody
        (writeBlock (writeHeader Writer.reliable helloRecord).1 helloRecord.Content).1.out
        (ascii "new")
      = (crlf ++ ascii "new", none) :=
  ⟨rfl, (replaceBlockBody_crlf_suffix [] (ascii "new") helloRecord rfl).2.2⟩

/-! ## C17: the caller's request -/

/-- C17: for every destination, the request after
`WriteRequestMethodAndHeaders` has Method `GET` if it was empty before and the
same Method otherwise, and the same Proto and Header; its Method is not
empty, and a further call leaves it as it is. -/
theorem WriteRequestMethodAndHeaders_frame (w w2 : Writer) (req : Request) :
    (WriteRequestMethodAndHeaders w req).2.1.Method
      = (if req.Method = [] then ascii "GET" else req.Method) ∧
    (WriteRequestMethodAndHeaders w req).2.1.Proto = req.Proto ∧
    (WriteRequestMethodAndHeaders w req).2.1.Header = req.Header ∧
    (WriteRequestMethodAndHeaders w req).2.1.Method ≠ [] ∧
    (WriteRequestMethodAndHeaders w2 (WriteRequestMethodAndHeaders w req).2.1).2.1
      = (WriteRequestMethodAndHeaders w req).2.1 := by
  by_cases hm : req.Method = []
  · have hreq : (WriteRequestMethodAndHeaders w req).2.1
        = { req with Method := ascii "GET" } := by
      simp [WriteRequestMethodAndHeaders, hm]
    rw [hreq]
    have hg : ascii "GET" ≠ [] := by decide
    refine ⟨by simp [hm], rfl, rfl, hg, ?_⟩
    simp [WriteRequestMethodAndHeaders, hg]
  · have hreq : (WriteRequestMethodAndHeaders w req).2.1 = req := by
      simp [WriteRequestMethodAndHeaders, hm]
    rw [hreq]
    refine ⟨by simp [hm], rfl, rfl, hm, ?_⟩
    simp [WriteRequestMethodAndHeaders, hm]

end warc
